import Mathlib

/-!
Verification of the BCP 47 locale canonicalization and likely-subtags logic of
`js/src/builtin/intl/make_intl_data.py`.

The Python file contains two algorithmic cores, both parametric over mapping
tables extracted from CLDR data (the tables themselves are external data, so
every definition below is parametric over a `Tables` value):

* the canonicalization logic emitted by `writeUpdateLocaleIdMappingsFunction`
  and `writeGrandfatheredMappingsFunction` (the generated branch-per-value
  dispatch is data-driven, so it is embedded as table lookups over the same
  data the generator iterates);
* the `canonical` / `addLikelySubtags` / `removeLikelySubtags` functions of
  `writeCLDRLanguageTagLikelySubtagsTest` (lines 693-755).
-/

/-- A bare `(language, script?, region?)` triple, the tag form used by the
likely-subtags functions and as key/value of the likely-subtags table. -/
structure LTag where
  language : String
  script : Option String
  region : Option String
deriving DecidableEq, Repr

/-- A full parsed Unicode BCP 47 locale identifier, as mutated by the
generated `updateLocaleIdMappings` / `updateGrandfatheredMappings`. -/
structure LocaleTag where
  language : String
  script : Option String
  region : Option String
  variants : List String
  extensions : List String
  privateuse : Option String
deriving DecidableEq, Repr

/-- One entry of a complex-region-mapping's non-default replacement list, in
the order the generated `switch` emits them (the generator sorts the entries
stably by language; a single tag can only match entries of its own language,
so the emitted order and the supplied order agree on every match). -/
structure ComplexRegionRepl where
  language : String
  script : Option String
  region : String
deriving DecidableEq, Repr

/-- A complex region mapping: a default region plus the ordered non-default
replacement list. -/
structure ComplexRegionEntry where
  defaultRegion : String
  nonDefault : List ComplexRegionRepl
deriving DecidableEq, Repr

/-- One grandfathered mapping as emitted by
`writeGrandfatheredMappingsFunction`: the `(language, variant)` pattern of the
grandfathered tag and the replacement fields (`variants` is the full
replacement variant list, `[]` when the modern tag has no variants). -/
structure GrandfatheredEntry where
  tagLanguage : String
  tagVariant : String
  language : String
  script : Option String
  region : Option String
  variants : List String
  privateuse : Option String
deriving DecidableEq, Repr

/-- The mapping tables both components consume (module-level dictionaries in
the Python source, association lists here). -/
structure Tables where
  languageMappings : List (String × String)
  complexLanguageMappings : List (String × LTag)
  regionMappings : List (String × String)
  complexRegionMappings : List (String × ComplexRegionEntry)
  grandfathered : List GrandfatheredEntry
  likelySubtags : List (LTag × LTag)
deriving Repr

/-- Association-list lookup (dictionary access in the Python source). -/
def lookup {κ ν : Type} [DecidableEq κ] (k : κ) : List (κ × ν) → Option ν
  | [] => none
  | (k', v) :: rest => if k' = k then some v else lookup k rest

/-! ## The `canonical` helper of the likely-subtags test code (lines 693-713)

`canonical` maps deprecated language subtags (simple and complex) and simple
deprecated region subtags; a region with a complex mapping trips the
`assert region not in complex_region_mappings` (modelled as `none`). -/

/-- Language half of `canonical` (lines 696-703): simple mapping replaces the
language; a complex mapping replaces the language and fills in script/region
only when absent. -/
def canonicalLangStep (T : Tables) (t : LTag) : LTag :=
  match lookup t.language T.languageMappings with
  | some l₂ => { t with language := l₂ }
  | none =>
    match lookup t.language T.complexLanguageMappings with
    | some m =>
      { language := m.language,
        script := match t.script with
                  | some σ => some σ
                  | none => m.script,
        region := match t.region with
                  | some ρ => some ρ
                  | none => m.region }
    | none => t

/-- Region half of `canonical` (lines 705-711): simple region mapping, and the
assertion that no complex region mapping is needed (`none` on violation). -/
def canonicalRegionStep (T : Tables) (t : LTag) : Option LTag :=
  match t.region with
  | none => some t
  | some ρ =>
    match lookup ρ T.regionMappings with
    | some ρ₂ => some { t with region := some ρ₂ }
    | none =>
      match lookup ρ T.complexRegionMappings with
      | some _ => none
      | none => some t

/-- `canonical` of the likely-subtags test code (lines 693-713). -/
def canonical (T : Tables) (t : LTag) : Option LTag :=
  canonicalRegionStep T (canonicalLangStep T t)

/-! ## `addLikelySubtags` (lines 717-739) -/

/-- Step 1 of `addLikelySubtags` after `canonical`: the sentinel script
`"Zzzz"` and sentinel region `"ZZ"` are treated as absent (lines 720-723). -/
def stripSentinels (t : LTag) : LTag :=
  { t with
    script := if t.script = some "Zzzz" then none else t.script,
    region := if t.region = some "ZZ" then none else t.region }

/-- Canonicalized, sentinel-stripped input of `addLikelySubtags`
(lines 718-723). -/
def canonicalStripped (T : Tables) (t : LTag) : Option LTag :=
  (canonical T t).map stripSentinels

/-- The five candidate lookup keys of `addLikelySubtags`, in priority order
(lines 726-730). -/
def searches (c : LTag) : List LTag :=
  [⟨c.language, c.script, c.region⟩,
   ⟨c.language, none, c.region⟩,
   ⟨c.language, c.script, none⟩,
   ⟨c.language, none, none⟩,
   ⟨"und", c.script, none⟩]

/-- The first candidate key present in the likely-subtags table (the
`next(search for search in searches if search in likely_subtags)` of
line 731; exhaustion of the generator is the fatal case). -/
def firstSearch (T : Tables) (c : LTag) : Option LTag :=
  (searches c).find? (fun k => (lookup k T.likelySubtags).isSome)

/-- Step 3 of `addLikelySubtags` (lines 737-739): field-wise, a field equal to
the matched key's field is replaced by the matched value's field, any other
field keeps the canonicalized input's value. -/
def combine (c k m : LTag) : LTag :=
  ⟨if c.language = k.language then m.language else c.language,
   if c.script = k.script then m.script else c.script,
   if c.region = k.region then m.region else c.region⟩

/-- `addLikelySubtags` (lines 717-739); `none` models the fatal conditions
(the `canonical` assertion and exhaustion of the candidate-key generator). -/
def addLikelySubtags (T : Tables) (t : LTag) : Option LTag :=
  match canonicalStripped T t with
  | none => none
  | some c =>
    match firstSearch T c with
    | none => none
    | some k =>
      match lookup k T.likelySubtags with
      | none => none
      | some m => some (combine c k m)

/-! ## `removeLikelySubtags` (lines 742-755) -/

/-- The three reduced forms tried by `removeLikelySubtags`, in order
(line 750). -/
def trials (mx : LTag) : List LTag :=
  [⟨mx.language, none, none⟩,
   ⟨mx.language, none, mx.region⟩,
   ⟨mx.language, mx.script, none⟩]

/-- The trial loop of `removeLikelySubtags` (lines 750-755): the first trial
that re-maximizes to `mx` is returned, `mx` itself when none does; a fatal
error inside a trial's `addLikelySubtags` propagates. -/
def tryTrials (T : Tables) (mx : LTag) : List LTag → Option LTag
  | [] => some mx
  | t :: rest =>
    match addLikelySubtags T t with
    | none => none
    | some r => if r = mx then some t else tryTrials T mx rest

/-- `removeLikelySubtags` (lines 742-755). -/
def removeLikelySubtags (T : Tables) (t : LTag) : Option LTag :=
  match addLikelySubtags T t with
  | none => none
  | some mx => tryTrials T mx (trials mx)

/-! ## The generated canonicalizer
(`writeUpdateLocaleIdMappingsFunction`, lines 99-235, and
`writeGrandfatheredMappingsFunction`, lines 238-383)

The generator emits one `case`/`if` per table entry; running the emitted
function is equivalent to looking the subtag up in the table the generator
iterated over, which is how it is embedded here. -/

/-- Language section of the generated `updateLocaleIdMappings`
(lines 111-162): simple mapping replaces the language; a complex mapping
replaces the language and sets script/region only when currently absent. -/
def langStep (T : Tables) (t : LocaleTag) : LocaleTag :=
  match lookup t.language T.languageMappings with
  | some l₂ => { t with language := l₂ }
  | none =>
    match lookup t.language T.complexLanguageMappings with
    | some m =>
      { t with
        language := m.language,
        script := if t.script.isSome then t.script else m.script,
        region := if t.region.isSome then t.region else m.region }
    | none => t

/-- The per-entry scan of a complex region mapping's non-default replacement
list (lines 202-215): an entry with a script matches on language and script,
an entry without matches on language alone; first match wins. -/
def crMatch (t : LocaleTag) (rep : ComplexRegionRepl) : Bool :=
  rep.language = t.language &&
    (match rep.script with
     | none => true
     | some σ => t.script = some σ)

/-- Replacement region chosen by a complex region mapping: the region of the
first matching non-default entry, else the default region (lines 202-220). -/
def complexRegionResult (e : ComplexRegionEntry) (t : LocaleTag) : String :=
  match e.nonDefault.find? (crMatch t) with
  | some rep => rep.region
  | none => e.defaultRegion

/-- Region section of the generated `updateLocaleIdMappings`
(lines 166-226). -/
def regionStep (T : Tables) (t : LocaleTag) : LocaleTag :=
  match t.region with
  | none => t
  | some ρ =>
    match lookup ρ T.regionMappings with
    | some ρ₂ => { t with region := some ρ₂ }
    | none =>
      match lookup ρ T.complexRegionMappings with
      | some e => { t with region := some (complexRegionResult e t) }
      | none => t

/-- The generated `updateLocaleIdMappings` (lines 106-235): language
canonicalization followed by region canonicalization. -/
def updateLocaleIdMappings (T : Tables) (t : LocaleTag) : LocaleTag :=
  regionStep T (langStep T t)

/-- The fast-path exclusion guard of the generated
`updateGrandfatheredMappings` (lines 274-281): a tag with a script, a region,
a variant count other than one, extensions, or a private-use part is returned
unchanged. -/
def grandfatheredGuard (t : LocaleTag) : Bool :=
  t.script.isSome || t.region.isSome || t.variants.length != 1 ||
    t.extensions.length != 0 || t.privateuse.isSome

/-- The per-entry pattern of the generated grandfathered chain (line 346):
`tag.language === L && tag.variants[0] === V`. -/
def gfMatch (t : LocaleTag) (g : GrandfatheredEntry) : Bool :=
  g.tagLanguage = t.language && t.variants.head? = some g.tagVariant

/-- The replacement body of a grandfathered match (lines 351-377): language is
always overwritten; script, region and private-use only when the modern tag
has them; the variant list is always replaced (cleared when the modern tag has
no variants). -/
def applyGrandfathered (g : GrandfatheredEntry) (t : LocaleTag) : LocaleTag :=
  { t with
    language := g.language,
    script := if g.script.isSome then g.script else t.script,
    region := if g.region.isSome then g.region else t.region,
    variants := g.variants,
    privateuse := if g.privateuse.isSome then g.privateuse else t.privateuse }

/-- The generated `updateGrandfatheredMappings` (lines 244-383). -/
def updateGrandfatheredMappings (T : Tables) (t : LocaleTag) : LocaleTag :=
  if grandfatheredGuard t then t
  else
    match T.grandfathered.find? (gfMatch t) with
    | some g => applyGrandfathered g t
    | none => t

/-- Full tag canonicalization: the grandfathered rewrite first, then the
per-subtag mappings (spec `canonicalize`, steps 1-3; the composition order is
the spec's, the two component functions are the generated ones). -/
def canonicalizeTag (T : Tables) (t : LocaleTag) : LocaleTag :=
  updateLocaleIdMappings T (updateGrandfatheredMappings T t)

/-! ## Concrete tables used by witnesses and counterexamples -/

/-- A minimal well-formed likely-subtags table: `en -> en-Latn-US`. -/
def TlikelyW : Tables :=
  ⟨[], [], [], [], [], [(⟨"en", none, none⟩, ⟨"en", some "Latn", some "US"⟩)]⟩

/-! ## Helper facts about `firstSearch` -/

/-- A key returned by `firstSearch` is present in the likely-subtags table. -/
theorem firstSearch_lookup {T : Tables} {c k : LTag}
    (h : firstSearch T c = some k) :
    ∃ m, lookup k T.likelySubtags = some m := by
  have h' : List.find? (fun s => (lookup s T.likelySubtags).isSome)
      (searches c) = some k := h
  have hp := List.find?_some (p := fun s => (lookup s T.likelySubtags).isSome) h'
  simpa [Option.isSome_iff_exists] using hp

/-- A key returned by `firstSearch` is one of the five candidate keys. -/
theorem firstSearch_mem {T : Tables} {c k : LTag}
    (h : firstSearch T c = some k) : k ∈ searches c := by
  have h' : List.find? (fun s => (lookup s T.likelySubtags).isSome)
      (searches c) = some k := h
  exact List.mem_of_find?_eq_some h'

/-! ## C1: field-wise result selection in `addLikelySubtags` -/

/-- Claim C1: after the canonicalized (and sentinel-stripped) input `c` is
matched against lookup key `k` with table value `m`, each result field is the
value's field when the key's field equals `c`'s field, and `c`'s own field
otherwise. -/
theorem addLikelySubtags_fieldwise (T : Tables) (t c k m : LTag)
    (hc : canonicalStripped T t = some c)
    (hk : firstSearch T c = some k)
    (hm : lookup k T.likelySubtags = some m) :
    addLikelySubtags T t =
      some ⟨if c.language = k.language then m.language else c.language,
            if c.script = k.script then m.script else c.script,
            if c.region = k.region then m.region else c.region⟩ := by
  simp only [addLikelySubtags, hc, hk, hm]
  rfl

/-- Witness for C1 at the concrete table `TlikelyW` and input `en`. -/
theorem addLikelySubtags_fieldwise_witness :
    addLikelySubtags TlikelyW ⟨"en", none, none⟩ =
      some ⟨"en", some "Latn", some "US"⟩ := by
  have h := addLikelySubtags_fieldwise TlikelyW ⟨"en", none, none⟩
    ⟨"en", none, none⟩ ⟨"en", none, none⟩ ⟨"en", some "Latn", some "US"⟩
    (by decide) (by decide) (by decide)
  exact h.trans (by decide)

/-! ## C2: the five candidate keys, first-present selection, fatal condition -/

/-- Claim C2: on the canonicalized, sentinel-stripped input `c`,
`addLikelySubtags` builds exactly the five candidate keys in priority order
`(language, script, region)`, `(language, none, region)`,
`(language, script, none)`, `(language, none, none)`, `("und", script, none)`;
it uses the first key present in the likely-subtags table, and it hits the
fatal condition if and only if none of the five keys is present. -/
theorem addLikelySubtags_candidates (T : Tables) (t c : LTag)
    (hc : canonicalStripped T t = some c) :
    searches c = [⟨c.language, c.script, c.region⟩,
                  ⟨c.language, none, c.region⟩,
                  ⟨c.language, c.script, none⟩,
                  ⟨c.language, none, none⟩,
                  ⟨"und", c.script, none⟩]
    ∧ (∀ k, firstSearch T c = some k →
        ∃ m, lookup k T.likelySubtags = some m ∧
          addLikelySubtags T t = some (combine c k m))
    ∧ (addLikelySubtags T t = none ↔
        ∀ k ∈ searches c, lookup k T.likelySubtags = none) := by
  refine ⟨rfl, ?_, ?_⟩
  · intro k hk
    obtain ⟨m, hm⟩ := firstSearch_lookup hk
    refine ⟨m, hm, ?_⟩
    simp only [addLikelySubtags, hc, hk, hm]
  · have h1 : addLikelySubtags T t = none ↔ firstSearch T c = none := by
      cases hfs : firstSearch T c with
      | none => simp [addLikelySubtags, hc, hfs]
      | some k =>
        obtain ⟨m, hm⟩ := firstSearch_lookup hfs
        simp [addLikelySubtags, hc, hfs, hm]
    have h2 : firstSearch T c = none ↔
        ∀ k ∈ searches c, lookup k T.likelySubtags = none := by
      unfold firstSearch
      rw [List.find?_eq_none]
      constructor
      · intro h k hk
        have := h k hk
        simpa using this
      · intro h k hk
        simp [h k hk]
    exact h1.trans h2

/-- Witness for C2 at the concrete table `TlikelyW` and input `en-Latn`. -/
theorem addLikelySubtags_candidates_witness :
    searches ⟨"en", some "Latn", none⟩ =
      [⟨"en", some "Latn", none⟩, ⟨"en", none, none⟩, ⟨"en", some "Latn", none⟩,
       ⟨"en", none, none⟩, ⟨"und", some "Latn", none⟩]
    ∧ (∀ k, firstSearch TlikelyW ⟨"en", some "Latn", none⟩ = some k →
        ∃ m, lookup k TlikelyW.likelySubtags = some m ∧
          addLikelySubtags TlikelyW ⟨"en", some "Latn", none⟩ =
            some (combine ⟨"en", some "Latn", none⟩ k m))
    ∧ (addLikelySubtags TlikelyW ⟨"en", some "Latn", none⟩ = none ↔
        ∀ k ∈ searches ⟨"en", some "Latn", none⟩,
          lookup k TlikelyW.likelySubtags = none) :=
  addLikelySubtags_candidates TlikelyW ⟨"en", some "Latn", none⟩
    ⟨"en", some "Latn", none⟩ (by decide)

/-! ## C3: the trial order of `removeLikelySubtags` -/

/-- When every trial's `addLikelySubtags` succeeds, the trial loop returns the
first trial that re-maximizes to `mx`, and `mx` itself when none does. -/
theorem tryTrials_eq_find (T : Tables) (mx : LTag) (l : List LTag)
    (h : ∀ t ∈ l, (addLikelySubtags T t).isSome) :
    tryTrials T mx l =
      some ((l.find? (fun t => decide (addLikelySubtags T t = some mx))).getD mx) := by
  induction l with
  | nil => rfl
  | cons t rest ih =>
    obtain ⟨r, hr⟩ := Option.isSome_iff_exists.mp (h t (by simp))
    have hrest : ∀ u ∈ rest, (addLikelySubtags T u).isSome := by
      intro u hu
      exact h u (by simp [hu])
    by_cases hcase : r = mx
    · subst hcase
      have hfind : (t :: rest).find?
          (fun u => decide (addLikelySubtags T u = some r)) = some t := by
        rw [List.find?_cons_of_pos]
        simp [hr]
      simp [tryTrials, hr, hfind]
    · have hfind : (t :: rest).find?
          (fun u => decide (addLikelySubtags T u = some mx)) =
          rest.find? (fun u => decide (addLikelySubtags T u = some mx)) := by
        rw [List.find?_cons_of_neg]
        simp [hr, hcase]
      simp only [tryTrials, hr, if_neg hcase, hfind]
      exact ih hrest

/-- Claim C3: `removeLikelySubtags x` computes `mx = addLikelySubtags x` and
then, provided each trial's own maximization succeeds, tries
`(language, none, none)`, `(language, none, region)`,
`(language, script, none)` in exactly that order, returns the first trial
that re-maximizes to `mx`, and returns `mx` itself when none does. -/
theorem removeLikelySubtags_trials (T : Tables) (x mx : LTag)
    (h : addLikelySubtags T x = some mx)
    (ht : ∀ t ∈ trials mx, (addLikelySubtags T t).isSome) :
    removeLikelySubtags T x =
      some (((trials mx).find?
        (fun t => decide (addLikelySubtags T t = some mx))).getD mx) := by
  unfold removeLikelySubtags
  rw [h]
  exact tryTrials_eq_find T mx (trials mx) ht

/-- Witness for C3 at the concrete table `TlikelyW` and input `en-Latn-US`. -/
theorem removeLikelySubtags_trials_witness :
    removeLikelySubtags TlikelyW ⟨"en", some "Latn", some "US"⟩ =
      some (((trials ⟨"en", some "Latn", some "US"⟩).find?
        (fun t => decide (addLikelySubtags TlikelyW t =
          some ⟨"en", some "Latn", some "US"⟩))).getD
            ⟨"en", some "Latn", some "US"⟩) :=
  removeLikelySubtags_trials TlikelyW ⟨"en", some "Latn", some "US"⟩
    ⟨"en", some "Latn", some "US"⟩ (by decide) (by decide)

/-! ## C7: complex region mappings in the generated canonicalizer -/

/-- The `SU` complex region mapping of the claim: default `RU`, one
non-default replacement `(uz, no script) -> UZ`. -/
def Tsu : Tables :=
  ⟨[], [], [], [("SU", ⟨"RU", [⟨"uz", none, "UZ"⟩]⟩)], [], []⟩

/-- Claim C7: a region with a complex region mapping is replaced by the region
of the first non-default replacement entry whose `(language, script)` matches
the tag (an entry without a script matching on language alone), falling back
to the default region when no entry matches; concretely, with the `SU` entry
(default `RU`, `(uz, none) -> UZ`), canonicalizing `region="SU"` yields
region `UZ` for `language="uz"` and region `RU` for `language="ru"`. -/
theorem complexRegion_firstMatch :
    (∀ (T : Tables) (t : LocaleTag) (ρ : String) (e : ComplexRegionEntry),
      t.region = some ρ →
      lookup ρ T.regionMappings = none →
      lookup ρ T.complexRegionMappings = some e →
      regionStep T t =
        { t with region := some (match e.nonDefault.find? (crMatch t) with
                                 | some rep => rep.region
                                 | none => e.defaultRegion) })
    ∧ canonicalizeTag Tsu ⟨"uz", none, some "SU", [], [], none⟩ =
        ⟨"uz", none, some "UZ", [], [], none⟩
    ∧ canonicalizeTag Tsu ⟨"ru", none, some "SU", [], [], none⟩ =
        ⟨"ru", none, some "RU", [], [], none⟩ := by
  refine ⟨?_, by decide, by decide⟩
  intro T t ρ e h1 h2 h3
  simp only [regionStep, h1, h2, h3]
  rfl

/-- Witness for C7's general part at the `SU` table and an `uz` tag. -/
theorem complexRegion_firstMatch_witness :
    regionStep Tsu ⟨"uz", none, some "SU", [], [], none⟩ =
      ⟨"uz", none, some "UZ", [], [], none⟩ := by
  have h := complexRegion_firstMatch.1 Tsu ⟨"uz", none, some "SU", [], [], none⟩
    "SU" ⟨"RU", [⟨"uz", none, "UZ"⟩]⟩ rfl (by decide) (by decide)
  exact h.trans (by decide)

/-! ## C8: qualification for the grandfathered rewrite -/

/-- A grandfathered table holding the `no-bok -> nb` mapping of the claim. -/
def Tnb : Tables :=
  ⟨[], [], [], [], [⟨"no", "bok", "nb", none, none, [], none⟩], []⟩

/-- The Boolean exclusion guard is exactly failure of the qualification
condition of the claim. -/
theorem grandfatheredGuard_iff (t : LocaleTag) :
    grandfatheredGuard t = true ↔
      ¬(t.script = none ∧ t.region = none ∧ t.variants.length = 1 ∧
        t.extensions = [] ∧ t.privateuse = none) := by
  simp only [grandfatheredGuard, Bool.or_eq_true, Option.isSome_iff_ne_none,
    bne_iff_ne, ne_eq, ← List.length_eq_zero]
  tauto

/-- Claim C8: the grandfathered rule rewrites a tag only when it has no
script, no region, exactly one variant, no extensions and no private-use and
its `(language, variant)` pair matches an entry; `no`+`[bok]` becomes `nb`
with the variant list cleared, and the same tag with a non-empty extension
list is left entirely untouched. -/
theorem grandfathered_qualification :
    (∀ (T : Tables) (t : LocaleTag),
      ¬(t.script = none ∧ t.region = none ∧ t.variants.length = 1 ∧
        t.extensions = [] ∧ t.privateuse = none) →
      updateGrandfatheredMappings T t = t)
    ∧ (∀ (T : Tables) (t : LocaleTag),
        T.grandfathered.find? (gfMatch t) = none →
        updateGrandfatheredMappings T t = t)
    ∧ updateGrandfatheredMappings Tnb ⟨"no", none, none, ["bok"], [], none⟩ =
        ⟨"nb", none, none, [], [], none⟩
    ∧ updateGrandfatheredMappings Tnb
        ⟨"no", none, none, ["bok"], ["u-ca-gregory"], none⟩ =
        ⟨"no", none, none, ["bok"], ["u-ca-gregory"], none⟩ := by
  refine ⟨?_, ?_, by decide, by decide⟩
  · intro T t h
    rw [updateGrandfatheredMappings, if_pos ((grandfatheredGuard_iff t).mpr h)]
  · intro T t h
    by_cases hg : grandfatheredGuard t
    · rw [updateGrandfatheredMappings, if_pos hg]
    · rw [updateGrandfatheredMappings, if_neg hg, h]

/-- Witness for C8's conditional parts: a tag with a script present, and a tag
matching no entry, are both left unchanged. -/
theorem grandfathered_qualification_witness :
    updateGrandfatheredMappings Tnb
      ⟨"no", some "Latn", none, ["bok"], [], none⟩ =
      ⟨"no", some "Latn", none, ["bok"], [], none⟩
    ∧ updateGrandfatheredMappings Tnb ⟨"fr", none, none, ["abcde"], [], none⟩ =
      ⟨"fr", none, none, ["abcde"], [], none⟩ :=
  ⟨grandfathered_qualification.1 Tnb ⟨"no", some "Latn", none, ["bok"], [], none⟩
     (by decide),
   grandfathered_qualification.2.1 Tnb ⟨"fr", none, none, ["abcde"], [], none⟩
     (by decide)⟩

/-! ## Data invariants of the likely-subtags machinery

`addLikelySubtags` is parametric over external CLDR data. Idempotence-style
properties do not hold for arbitrary tables; they hold under the following
well-formedness invariants of the data (which the curated CLDR tables are
designed to satisfy). -/

/-- A language subtag no language mapping applies to. -/
abbrev LangFixed (T : Tables) (l : String) : Prop :=
  lookup l T.languageMappings = none ∧ lookup l T.complexLanguageMappings = none

/-- A region subtag no region mapping applies to. -/
abbrev RegionFixed (T : Tables) (ρ : String) : Prop :=
  lookup ρ T.regionMappings = none ∧ lookup ρ T.complexRegionMappings = none

/-- An optional region that is absent or fixed under the region mappings. -/
def RegionFixedO (T : Tables) : Option String → Prop
  | none => True
  | some ρ => RegionFixed T ρ

instance (T : Tables) (r : Option String) : Decidable (RegionFixedO T r) :=
  match r with
  | none => isTrue trivial
  | some ρ => inferInstanceAs (Decidable (RegionFixed T ρ))

/-- A well-formed likely-subtags table value: a complete, non-sentinel triple
with a real (non-`und`) language, itself fixed under canonicalization. -/
abbrev ValueGood (T : Tables) (m : LTag) : Prop :=
  m.language ≠ "und" ∧ LangFixed T m.language ∧
  m.script ≠ none ∧ m.script ≠ some "Zzzz" ∧
  m.region ≠ none ∧ m.region ≠ some "ZZ" ∧ RegionFixedO T m.region

/-- The value of a likely-subtags entry preserves every specified field of its
key: the key's own language when it is not `und`, and any script or region the
key carries. -/
abbrev KeyValueCompat (k m : LTag) : Prop :=
  (k.language ≠ "und" → m.language = k.language) ∧
  (k.script.isSome → m.script = k.script) ∧
  (k.region.isSome → m.region = k.region)

/-- Closure of the canonicalization tables used by `canonical`: every mapped
language or region value is itself unmapped. -/
abbrev CanonValuesFixed (T : Tables) : Prop :=
  (∀ p ∈ T.languageMappings, LangFixed T p.2) ∧
  (∀ p ∈ T.complexLanguageMappings, LangFixed T p.2.language) ∧
  (∀ p ∈ T.regionMappings, RegionFixed T p.2)

/-- The combined data invariant under which maximization is idempotent. -/
abbrev LikelyInv (T : Tables) : Prop :=
  CanonValuesFixed T ∧
  ∀ p ∈ T.likelySubtags, ValueGood T p.2 ∧ KeyValueCompat p.1 p.2

/-- A successful association-list lookup is a membership. -/
theorem lookup_mem {κ ν : Type} [DecidableEq κ] {k : κ} {v : ν}
    {l : List (κ × ν)} (h : lookup k l = some v) : (k, v) ∈ l := by
  induction l with
  | nil => simp [lookup] at h
  | cons p rest ih =>
    obtain ⟨k', v'⟩ := p
    rw [lookup] at h
    by_cases hk : k' = k
    · rw [if_pos hk] at h
      obtain rfl : v' = v := by simpa using h
      subst hk
      exact List.mem_cons_self _ _
    · rw [if_neg hk] at h
      exact List.mem_cons_of_mem _ (ih h)

/-- A fixed language passes `canonicalLangStep` unchanged. -/
theorem canonicalLangStep_id {T : Tables} {t : LTag}
    (h : LangFixed T t.language) : canonicalLangStep T t = t := by
  unfold canonicalLangStep
  rw [h.1, h.2]

/-- An absent-or-fixed region passes `canonicalRegionStep` unchanged. -/
theorem canonicalRegionStep_id {T : Tables} {t : LTag}
    (h : RegionFixedO T t.region) : canonicalRegionStep T t = some t := by
  cases hr : t.region with
  | none => simp [canonicalRegionStep, hr]
  | some ρ =>
    rw [hr] at h
    simp [canonicalRegionStep, hr, h.1, h.2]

/-- A tag without sentinel script/region passes `stripSentinels` unchanged. -/
theorem stripSentinels_id {t : LTag}
    (hs : t.script ≠ some "Zzzz") (hr : t.region ≠ some "ZZ") :
    stripSentinels t = t := by
  unfold stripSentinels
  rw [if_neg hs, if_neg hr]

/-- A fixed, non-sentinel tag passes `canonicalStripped` unchanged. -/
theorem canonicalStripped_id {T : Tables} {t : LTag}
    (hl : LangFixed T t.language) (hr : RegionFixedO T t.region)
    (hsz : t.script ≠ some "Zzzz") (hrz : t.region ≠ some "ZZ") :
    canonicalStripped T t = some t := by
  unfold canonicalStripped canonical
  rw [canonicalLangStep_id hl, canonicalRegionStep_id hr]
  simp [stripSentinels_id hsz hrz]

/-- The language and region of a successful `canonical` output are fixed,
given closed canonicalization tables. -/
theorem canonical_fixed {T : Tables} (hT : CanonValuesFixed T) {x c : LTag}
    (h : canonical T x = some c) :
    LangFixed T c.language ∧ RegionFixedO T c.region := by
  obtain ⟨hL, hCL, hR⟩ := hT
  have hlang : LangFixed T (canonicalLangStep T x).language := by
    unfold canonicalLangStep
    cases hm : lookup x.language T.languageMappings with
    | some l₂ => exact hL _ (lookup_mem hm)
    | none =>
      cases hm2 : lookup x.language T.complexLanguageMappings with
      | some m => exact hCL _ (lookup_mem hm2)
      | none => exact ⟨hm, hm2⟩
  cases hr : (canonicalLangStep T x).region with
  | none =>
    simp only [canonical, canonicalRegionStep, hr] at h
    obtain rfl : canonicalLangStep T x = c := by simpa using h
    exact ⟨hlang, by rw [hr]; trivial⟩
  | some ρ =>
    simp only [canonical, canonicalRegionStep, hr] at h
    cases hm : lookup ρ T.regionMappings with
    | some ρ₂ =>
      simp only [hm] at h
      obtain rfl : { canonicalLangStep T x with region := some ρ₂ } = c := by
        simpa using h
      exact ⟨hlang, hR _ (lookup_mem hm)⟩
    | none =>
      simp only [hm] at h
      cases hm2 : lookup ρ T.complexRegionMappings with
      | some e => simp only [hm2] at h; cases h
      | none =>
        simp only [hm2] at h
        obtain rfl : canonicalLangStep T x = c := by simpa using h
        exact ⟨hlang, by rw [hr]; exact ⟨hm, hm2⟩⟩

/-- Inversion of a successful `addLikelySubtags` run into its stages. -/
theorem addLikelySubtags_inv {T : Tables} {x y : LTag}
    (h : addLikelySubtags T x = some y) :
    ∃ c k m, canonicalStripped T x = some c ∧ firstSearch T c = some k ∧
      lookup k T.likelySubtags = some m ∧ y = combine c k m := by
  cases hc : canonicalStripped T x with
  | none => simp [addLikelySubtags, hc] at h
  | some c =>
    cases hk : firstSearch T c with
    | none => simp [addLikelySubtags, hc, hk] at h
    | some k =>
      cases hm : lookup k T.likelySubtags with
      | none => simp [addLikelySubtags, hc, hk, hm] at h
      | some m =>
        simp only [addLikelySubtags, hc, hk, hm] at h
        exact ⟨c, k, m, rfl, hk, hm, by simpa using h.symm⟩

/-- Each of the five candidate keys agrees with the canonicalized input
field-wise up to absence (and up to `und` for the language). -/
theorem mem_searches {c k : LTag} (h : k ∈ searches c) :
    (k.language = c.language ∨ k.language = "und") ∧
    (k.script = c.script ∨ k.script = none) ∧
    (k.region = c.region ∨ k.region = none) := by
  simp only [searches, List.mem_cons, List.mem_singleton, List.not_mem_nil,
    or_false] at h
  rcases h with h | h | h | h | h <;> subst h <;> simp

/-- Projection of `stripSentinels` on the language field. -/
theorem stripSentinels_language (t : LTag) :
    (stripSentinels t).language = t.language := rfl

/-- Projection of `stripSentinels` on the script field. -/
theorem stripSentinels_script (t : LTag) :
    (stripSentinels t).script =
      if t.script = some "Zzzz" then none else t.script := rfl

/-- Projection of `stripSentinels` on the region field. -/
theorem stripSentinels_region (t : LTag) :
    (stripSentinels t).region =
      if t.region = some "ZZ" then none else t.region := rfl

/-- Projection of `combine` on the language field. -/
theorem combine_language (c k m : LTag) :
    (combine c k m).language =
      if c.language = k.language then m.language else c.language := rfl

/-- Projection of `combine` on the script field. -/
theorem combine_script (c k m : LTag) :
    (combine c k m).script =
      if c.script = k.script then m.script else c.script := rfl

/-- Projection of `combine` on the region field. -/
theorem combine_region (c k m : LTag) :
    (combine c k m).region =
      if c.region = k.region then m.region else c.region := rfl

/-- The canonicalized, sentinel-stripped input has fixed language/region and
no sentinel fields, given closed canonicalization tables. -/
theorem canonicalStripped_inv {T : Tables} (hT : CanonValuesFixed T)
    {x c : LTag} (h : canonicalStripped T x = some c) :
    LangFixed T c.language ∧ RegionFixedO T c.region ∧
    c.script ≠ some "Zzzz" ∧ c.region ≠ some "ZZ" := by
  cases hc : canonical T x with
  | none => simp [canonicalStripped, hc] at h
  | some c₀ =>
    simp only [canonicalStripped, hc, Option.map_some'] at h
    obtain rfl : stripSentinels c₀ = c := by simpa using h
    obtain ⟨hl, hr⟩ := canonical_fixed hT hc
    refine ⟨hl, ?_, ?_, ?_⟩
    · rw [stripSentinels_region]
      by_cases hz : c₀.region = some "ZZ"
      · rw [if_pos hz]; trivial
      · rw [if_neg hz]; exact hr
    · rw [stripSentinels_script]
      by_cases hz : c₀.script = some "Zzzz"
      · rw [if_pos hz]; simp
      · rw [if_neg hz]; exact hz
    · rw [stripSentinels_region]
      by_cases hz : c₀.region = some "ZZ"
      · rw [if_pos hz]; simp
      · rw [if_neg hz]; exact hz

/-- The explicit-wins combination fixes a complete, non-`und` tag: whenever
the table values preserve the specified fields of their keys, combining a tag
with any of its own candidate keys gives the tag back. -/
theorem combine_self {T : Tables}
    (hKV : ∀ p ∈ T.likelySubtags, KeyValueCompat p.1 p.2)
    {y k m : LTag}
    (hmem : k ∈ searches y) (hlk : lookup k T.likelySubtags = some m)
    (hund : y.language ≠ "und") (hs : y.script ≠ none) (hr : y.region ≠ none) :
    combine y k m = y := by
  obtain ⟨hkl, hks, hkr⟩ := hKV (k, m) (lookup_mem hlk)
  obtain ⟨hl, hsc, hre⟩ := mem_searches hmem
  have h1 : (if y.language = k.language then m.language else y.language) =
      y.language := by
    by_cases hcase : y.language = k.language
    · rw [if_pos hcase]
      have hku : k.language ≠ "und" := by rw [← hcase]; exact hund
      rw [hkl hku, ← hcase]
    · rw [if_neg hcase]
  have h2 : (if y.script = k.script then m.script else y.script) =
      y.script := by
    by_cases hcase : y.script = k.script
    · rw [if_pos hcase]
      have hksome : k.script.isSome := by
        rcases hsc with h' | h'
        · rw [h']; exact Option.isSome_iff_ne_none.mpr hs
        · exact absurd (hcase.trans h') hs
      rw [hks hksome]
      exact hcase.symm
    · rw [if_neg hcase]
  have h3 : (if y.region = k.region then m.region else y.region) =
      y.region := by
    by_cases hcase : y.region = k.region
    · rw [if_pos hcase]
      have hksome : k.region.isSome := by
        rcases hre with h' | h'
        · rw [h']; exact Option.isSome_iff_ne_none.mpr hr
        · exact absurd (hcase.trans h') hr
      rw [hkr hksome]
      exact hcase.symm
    · rw [if_neg hcase]
  unfold combine
  rw [h1, h2, h3]

/-- Under the data invariants, every successful output of `addLikelySubtags`
is a fixed point of it (provided re-maximizing it does not hit the fatal
condition). -/
theorem addLikely_fixpoint {T : Tables} (hT : LikelyInv T) {x y : LTag}
    (h : addLikelySubtags T x = some y)
    (hs : (addLikelySubtags T y).isSome) :
    addLikelySubtags T y = some y := by
  obtain ⟨hCT, hLS⟩ := hT
  obtain ⟨c, k, m, hc, hk, hm, rfl⟩ := addLikelySubtags_inv h
  obtain ⟨hvg, hkvc⟩ := hLS (k, m) (lookup_mem hm)
  obtain ⟨hmund, hmlf, hms, hmsz, hmr, hmrz, hmrf⟩ := hvg
  obtain ⟨hklor, hksor, hkror⟩ := mem_searches (firstSearch_mem hk)
  have hcinv := canonicalStripped_inv hCT hc
  have hyund : (combine c k m).language ≠ "und" := by
    rw [combine_language]
    by_cases hcase : c.language = k.language
    · rw [if_pos hcase]; exact hmund
    · rw [if_neg hcase]
      rcases hklor with h' | h'
      · exact absurd h'.symm hcase
      · intro hcu; exact hcase (hcu.trans h'.symm)
  have hylf : LangFixed T (combine c k m).language := by
    rw [combine_language]
    by_cases hcase : c.language = k.language
    · rw [if_pos hcase]; exact hmlf
    · rw [if_neg hcase]; exact hcinv.1
  have hysome : (combine c k m).script ≠ none := by
    rw [combine_script]
    by_cases hcase : c.script = k.script
    · rw [if_pos hcase]; exact hms
    · rw [if_neg hcase]
      rcases hksor with h' | h'
      · exact absurd h'.symm hcase
      · intro hnone; exact hcase (hnone.trans h'.symm)
  have hysz : (combine c k m).script ≠ some "Zzzz" := by
    rw [combine_script]
    by_cases hcase : c.script = k.script
    · rw [if_pos hcase]; exact hmsz
    · rw [if_neg hcase]; exact hcinv.2.2.1
  have hyrne : (combine c k m).region ≠ none := by
    rw [combine_region]
    by_cases hcase : c.region = k.region
    · rw [if_pos hcase]; exact hmr
    · rw [if_neg hcase]
      rcases hkror with h' | h'
      · exact absurd h'.symm hcase
      · intro hnone; exact hcase (hnone.trans h'.symm)
  have hyrz : (combine c k m).region ≠ some "ZZ" := by
    rw [combine_region]
    by_cases hcase : c.region = k.region
    · rw [if_pos hcase]; exact hmrz
    · rw [if_neg hcase]; exact hcinv.2.2.2
  have hyrf : RegionFixedO T (combine c k m).region := by
    rw [combine_region]
    by_cases hcase : c.region = k.region
    · rw [if_pos hcase]; exact hmrf
    · rw [if_neg hcase]; exact hcinv.2.1
  have hcy : canonicalStripped T (combine c k m) = some (combine c k m) :=
    canonicalStripped_id hylf hyrf hysz hyrz
  cases hk2 : firstSearch T (combine c k m) with
  | none => simp [addLikelySubtags, hcy, hk2] at hs
  | some k₂ =>
    obtain ⟨m₂, hm₂⟩ := firstSearch_lookup hk2
    have hrun : addLikelySubtags T (combine c k m) =
        some (combine (combine c k m) k₂ m₂) := by
      simp only [addLikelySubtags, hcy, hk2, hm₂]
    rw [hrun]
    congr 1
    exact combine_self (fun p hp => (hLS p hp).2) (firstSearch_mem hk2) hm₂
      hyund hysome hyrne

/-- Inversion of the trial loop: a returned trial re-maximizes to `mx`, or
the returned value is `mx` itself. -/
theorem tryTrials_inv {T : Tables} {mx y : LTag} {l : List LTag}
    (h : tryTrials T mx l = some y) :
    addLikelySubtags T y = some mx ∨ y = mx := by
  induction l with
  | nil =>
    right
    simpa [tryTrials] using h.symm
  | cons t rest ih =>
    cases ha : addLikelySubtags T t with
    | none => simp [tryTrials, ha] at h
    | some r =>
      by_cases hcase : r = mx
      · subst hcase
        simp only [tryTrials, ha, if_pos rfl] at h
        obtain rfl : t = y := by simpa using h
        exact Or.inl ha
      · simp only [tryTrials, ha, if_neg hcase] at h
        exact ih h

/-! ## C5: idempotence of maximization -/

/-- A likely-subtags table on which maximization is not idempotent: the fully
specified key `aa-Latn-AA` maps away from itself and its image `bb-Cyrl-BB`
(a violation of the key-field-preservation invariant) is again a key mapping
away from itself. -/
def Tidem : Tables :=
  ⟨[], [], [], [], [],
   [(⟨"aa", none, none⟩, ⟨"bb", some "Cyrl", some "BB"⟩),
    (⟨"bb", some "Cyrl", some "BB"⟩, ⟨"bb", some "Hani", some "DD"⟩)]⟩

/-- Counterexample to claim C5 as stated: over the table `Tidem`, both
applications of `addLikelySubtags` succeed on `aa`, yet
`maximize (maximize aa) = bb-Hani-DD ≠ bb-Cyrl-BB = maximize aa`. -/
theorem maximize_idempotent_cex :
    addLikelySubtags Tidem ⟨"aa", none, none⟩ =
      some ⟨"bb", some "Cyrl", some "BB"⟩
    ∧ addLikelySubtags Tidem ⟨"bb", some "Cyrl", some "BB"⟩ =
      some ⟨"bb", some "Hani", some "DD"⟩
    ∧ (⟨"bb", some "Hani", some "DD"⟩ : LTag) ≠
      ⟨"bb", some "Cyrl", some "BB"⟩ := by
  exact ⟨by decide, by decide, by decide⟩

/-- Claim C5, amended: maximization is idempotent over tables satisfying the
data invariants `LikelyInv` (canonicalization-closed tables, and
likely-subtags values that are complete, non-sentinel, non-`und`,
canonical-fixed and preserve the specified fields of their keys), for every
input on which both applications succeed. -/
theorem maximize_idempotent (T : Tables) (x y : LTag) (hT : LikelyInv T)
    (h : addLikelySubtags T x = some y)
    (hs : (addLikelySubtags T y).isSome) :
    addLikelySubtags T y = some y :=
  addLikely_fixpoint hT h hs

/-- Witness for the amended C5 at the concrete table `TlikelyW`. -/
theorem maximize_idempotent_witness :
    addLikelySubtags TlikelyW ⟨"en", some "Latn", some "US"⟩ =
      some ⟨"en", some "Latn", some "US"⟩ :=
  maximize_idempotent TlikelyW ⟨"en", none, none⟩
    ⟨"en", some "Latn", some "US"⟩ (by decide) (by decide) (by decide)

/-! ## C4: the maximize/minimize round trip -/

/-- A table over which the round trip fails: `aa-Latn-AA` maximizes to
`bb-Cyrl-BB`, no reduced form of which round-trips, so minimization returns
`bb-Cyrl-BB` itself; re-maximizing that hits the table entry for the full
triple and produces `bb-Hani-DD`. -/
def Trt : Tables :=
  ⟨[], [], [], [], [],
   [(⟨"aa", some "Latn", some "AA"⟩, ⟨"bb", some "Cyrl", some "BB"⟩),
    (⟨"bb", none, none⟩, ⟨"bb", some "Grek", some "CC"⟩),
    (⟨"bb", some "Cyrl", some "BB"⟩, ⟨"bb", some "Hani", some "DD"⟩)]⟩

/-- Counterexample to claim C4 as stated: over `Trt` all operations succeed on
`aa-Latn-AA`, yet `maximize (minimize x) = bb-Hani-DD ≠ bb-Cyrl-BB
= maximize x`. -/
theorem minimize_roundtrip_cex :
    addLikelySubtags Trt ⟨"aa", some "Latn", some "AA"⟩ =
      some ⟨"bb", some "Cyrl", some "BB"⟩
    ∧ removeLikelySubtags Trt ⟨"aa", some "Latn", some "AA"⟩ =
      some ⟨"bb", some "Cyrl", some "BB"⟩
    ∧ addLikelySubtags Trt ⟨"bb", some "Cyrl", some "BB"⟩ =
      some ⟨"bb", some "Hani", some "DD"⟩
    ∧ (⟨"bb", some "Hani", some "DD"⟩ : LTag) ≠
      ⟨"bb", some "Cyrl", some "BB"⟩ := by
  exact ⟨by decide, by decide, by decide, by decide⟩

/-- Claim C4, amended: over tables satisfying the data invariants
`LikelyInv`, for every input on which the operations succeed,
`maximize (minimize x) = maximize x`. -/
theorem minimize_roundtrip (T : Tables) (x y z : LTag) (hT : LikelyInv T)
    (h : removeLikelySubtags T x = some y)
    (hz : addLikelySubtags T y = some z) :
    addLikelySubtags T y = addLikelySubtags T x := by
  cases hmx : addLikelySubtags T x with
  | none => simp [removeLikelySubtags, hmx] at h
  | some mx =>
    simp only [removeLikelySubtags, hmx] at h
    rcases tryTrials_inv h with h1 | rfl
    · rw [h1]
    · exact addLikely_fixpoint hT hmx (Option.isSome_iff_exists.mpr ⟨z, hz⟩)

/-- Witness for the amended C4 at the concrete table `TlikelyW`:
minimizing `en-Latn-US` gives `en`, whose maximization equals that of the
original input. -/
theorem minimize_roundtrip_witness :
    addLikelySubtags TlikelyW ⟨"en", none, none⟩ =
      addLikelySubtags TlikelyW ⟨"en", some "Latn", some "US"⟩ :=
  minimize_roundtrip TlikelyW ⟨"en", some "Latn", some "US"⟩
    ⟨"en", none, none⟩ ⟨"en", some "Latn", some "US"⟩
    (by decide) (by decide) (by decide)

/-! ## C9: the explicit-wins invariant of maximization -/

/-- A realistic table slice (`und-Latn -> en-Latn-US`) on which an input with
both script and region present and non-sentinel is still changed by
maximization. -/
def Tund : Tables :=
  ⟨[], [], [], [], [],
   [(⟨"und", some "Latn", none⟩, ⟨"en", some "Latn", some "US"⟩)]⟩

/-- Counterexample to claim C9 as stated: `und-Latn-US` has a non-empty,
non-sentinel script and region, yet maximizes to `en-Latn-US`, changing the
language field. -/
theorem maximize_explicit_wins_cex :
    addLikelySubtags Tund ⟨"und", some "Latn", some "US"⟩ =
      some ⟨"en", some "Latn", some "US"⟩
    ∧ (some "Latn" : Option String) ≠ none
    ∧ (some "US" : Option String) ≠ none
    ∧ (some "Latn" : Option String) ≠ some "Zzzz"
    ∧ (some "US" : Option String) ≠ some "ZZ"
    ∧ (⟨"en", some "Latn", some "US"⟩ : LTag) ≠
      ⟨"und", some "Latn", some "US"⟩ := by
  exact ⟨by decide, by decide, by decide, by decide, by decide, by decide⟩

/-- Claim C9, amended: if the table values preserve the specified fields of
their keys, the input triple is already canonical, its language is not `und`,
and its script and region are both present and non-sentinel, then a
successful maximization returns the triple unchanged. -/
theorem maximize_explicit_wins (T : Tables) (x y : LTag) (s r : String)
    (hKV : ∀ p ∈ T.likelySubtags, KeyValueCompat p.1 p.2)
    (hcx : canonical T x = some x)
    (hs : x.script = some s) (hsz : s ≠ "Zzzz")
    (hr : x.region = some r) (hrz : r ≠ "ZZ")
    (hund : x.language ≠ "und")
    (h : addLikelySubtags T x = some y) :
    y = x := by
  have hssz : x.script ≠ some "Zzzz" := by
    rw [hs]
    intro hcon
    exact hsz (by simpa using hcon)
  have hrrz : x.region ≠ some "ZZ" := by
    rw [hr]
    intro hcon
    exact hrz (by simpa using hcon)
  have hcs : canonicalStripped T x = some x := by
    simp [canonicalStripped, hcx, stripSentinels_id hssz hrrz]
  obtain ⟨c, k, m, hc, hk, hm, rfl⟩ := addLikelySubtags_inv h
  rw [hcs] at hc
  obtain rfl : c = x := by simpa using hc.symm
  exact combine_self hKV (firstSearch_mem hk) hm hund
    (by rw [hs]; simp) (by rw [hr]; simp)

/-- Witness for the amended C9 at the concrete table `TlikelyW` and the
already-maximal input `en-Latn-US`. -/
theorem maximize_explicit_wins_witness :
    (⟨"en", some "Latn", some "US"⟩ : LTag) =
      ⟨"en", some "Latn", some "US"⟩ :=
  maximize_explicit_wins TlikelyW ⟨"en", some "Latn", some "US"⟩
    ⟨"en", some "Latn", some "US"⟩ "Latn" "US"
    (by decide) (by decide) (by decide) (by decide) (by decide) (by decide)
    (by decide) (by decide)

/-! ## Component lemmas for the generated canonicalizer -/

/-- `langStep` never touches the variant list. -/
theorem langStep_variants (T : Tables) (t : LocaleTag) :
    (langStep T t).variants = t.variants := by
  unfold langStep
  split
  · rfl
  · split <;> rfl

/-- `langStep` never touches the extension list. -/
theorem langStep_extensions (T : Tables) (t : LocaleTag) :
    (langStep T t).extensions = t.extensions := by
  unfold langStep
  split
  · rfl
  · split <;> rfl

/-- `langStep` never touches the private-use part. -/
theorem langStep_privateuse (T : Tables) (t : LocaleTag) :
    (langStep T t).privateuse = t.privateuse := by
  unfold langStep
  split
  · rfl
  · split <;> rfl

/-- `langStep` keeps a present script. -/
theorem langStep_script_isSome (T : Tables) (t : LocaleTag)
    (h : t.script.isSome) : (langStep T t).script = t.script := by
  unfold langStep
  split
  · rfl
  · split
    · simp [h]
    · rfl

/-- `langStep` keeps a present region. -/
theorem langStep_region_isSome (T : Tables) (t : LocaleTag)
    (h : t.region.isSome) : (langStep T t).region = t.region := by
  unfold langStep
  split
  · rfl
  · split
    · simp [h]
    · rfl

/-- `regionStep` never touches the language. -/
theorem regionStep_language (T : Tables) (t : LocaleTag) :
    (regionStep T t).language = t.language := by
  unfold regionStep
  split
  · rfl
  · split
    · rfl
    · split <;> rfl

/-- `regionStep` never touches the script. -/
theorem regionStep_script (T : Tables) (t : LocaleTag) :
    (regionStep T t).script = t.script := by
  unfold regionStep
  split
  · rfl
  · split
    · rfl
    · split <;> rfl

/-- `regionStep` never touches the variant list. -/
theorem regionStep_variants (T : Tables) (t : LocaleTag) :
    (regionStep T t).variants = t.variants := by
  unfold regionStep
  split
  · rfl
  · split
    · rfl
    · split <;> rfl

/-- `regionStep` never touches the extension list. -/
theorem regionStep_extensions (T : Tables) (t : LocaleTag) :
    (regionStep T t).extensions = t.extensions := by
  unfold regionStep
  split
  · rfl
  · split
    · rfl
    · split <;> rfl

/-- `regionStep` never touches the private-use part. -/
theorem regionStep_privateuse (T : Tables) (t : LocaleTag) :
    (regionStep T t).privateuse = t.privateuse := by
  unfold regionStep
  split
  · rfl
  · split
    · rfl
    · split <;> rfl

/-- `regionStep` keeps a present region present. -/
theorem regionStep_region_isSome (T : Tables) (t : LocaleTag)
    (h : t.region.isSome) : (regionStep T t).region.isSome := by
  cases hr : t.region with
  | none => rw [hr] at h; simp at h
  | some ρ =>
    unfold regionStep
    simp only [hr]
    split
    · rfl
    · split <;> simp [hr]

/-- A fixed language passes `langStep` unchanged. -/
theorem langStep_id {T : Tables} {t : LocaleTag}
    (h : LangFixed T t.language) : langStep T t = t := by
  simp [langStep, h.1, h.2]

/-- An absent-or-fixed region passes `regionStep` unchanged. -/
theorem regionStep_id {T : Tables} {t : LocaleTag}
    (h : RegionFixedO T t.region) : regionStep T t = t := by
  cases hr : t.region with
  | none => simp [regionStep, hr]
  | some ρ =>
    rw [hr] at h
    simp [regionStep, hr, h.1, h.2]

/-! ## C6: idempotence of the full canonicalizer -/

/-- A grandfathered replacement that cannot itself be rewritten again by the
grandfathered rule: it carries a script, region or private-use part, does not
have exactly one variant, or its `(language, variant)` pair matches no
entry. -/
abbrev GrandfatheredNoRematch (T : Tables) (g : GrandfatheredEntry) : Prop :=
  g.script ≠ none ∨ g.region ≠ none ∨ g.variants.length ≠ 1 ∨
  g.privateuse ≠ none ∨
  ∀ g₂ ∈ T.grandfathered,
    ¬(g₂.tagLanguage = g.language ∧ g.variants.head? = some g₂.tagVariant)

/-- Closure invariants of the canonicalization data: every mapped value is
itself unmapped, complex-region replacement regions are unmapped, no mapping
produces the language of a grandfathered pattern, and grandfathered
replacements are canonical and cannot re-qualify. -/
abbrev CanonClosed (T : Tables) : Prop :=
  CanonValuesFixed T ∧
  (∀ p ∈ T.complexRegionMappings, RegionFixed T p.2.defaultRegion ∧
    ∀ rep ∈ p.2.nonDefault, RegionFixed T rep.region) ∧
  (∀ p ∈ T.languageMappings, ∀ g ∈ T.grandfathered, g.tagLanguage ≠ p.2) ∧
  (∀ p ∈ T.complexLanguageMappings, ∀ g ∈ T.grandfathered,
    g.tagLanguage ≠ p.2.language) ∧
  (∀ g ∈ T.grandfathered, LangFixed T g.language ∧ RegionFixedO T g.region ∧
    GrandfatheredNoRematch T g)

/-- An absent optional region is trivially fixed. -/
theorem regionFixedO_of_none {T : Tables} {r : Option String} (h : r = none) :
    RegionFixedO T r := by
  rw [h]; trivial

/-- The language produced by `updateLocaleIdMappings` is fixed. -/
theorem locId_lang_fixed {T : Tables} (hT : CanonValuesFixed T)
    (t : LocaleTag) : LangFixed T (updateLocaleIdMappings T t).language := by
  rw [updateLocaleIdMappings, regionStep_language]
  unfold langStep
  cases hm : lookup t.language T.languageMappings with
  | some l₂ => exact hT.1 _ (lookup_mem hm)
  | none =>
    cases hm2 : lookup t.language T.complexLanguageMappings with
    | some m => exact hT.2.1 _ (lookup_mem hm2)
    | none => exact ⟨hm, hm2⟩

/-- The region produced by `updateLocaleIdMappings` is absent or fixed. -/
theorem locId_region_fixed {T : Tables} (hT : CanonValuesFixed T)
    (hCR : ∀ p ∈ T.complexRegionMappings, RegionFixed T p.2.defaultRegion ∧
      ∀ rep ∈ p.2.nonDefault, RegionFixed T rep.region)
    (t : LocaleTag) : RegionFixedO T (updateLocaleIdMappings T t).region := by
  rw [updateLocaleIdMappings]
  cases hr : (langStep T t).region with
  | none =>
    rw [regionStep_id (regionFixedO_of_none hr), hr]
    trivial
  | some ρ =>
    unfold regionStep
    simp only [hr]
    cases hm : lookup ρ T.regionMappings with
    | some ρ₂ => exact hT.2.2 _ (lookup_mem hm)
    | none =>
      cases hm2 : lookup ρ T.complexRegionMappings with
      | some e =>
        obtain ⟨hdef, hrep⟩ := hCR _ (lookup_mem hm2)
        show RegionFixed T (complexRegionResult e (langStep T t))
        cases hf : (e.nonDefault).find? (crMatch (langStep T t)) with
        | some rep =>
          have : complexRegionResult e (langStep T t) = rep.region := by
            simp [complexRegionResult, hf]
          rw [this]
          exact hrep rep (List.mem_of_find?_eq_some hf)
        | none =>
          have : complexRegionResult e (langStep T t) = e.defaultRegion := by
            simp [complexRegionResult, hf]
          rw [this]
          exact hdef
      | none =>
        show RegionFixedO T (langStep T t).region
        rw [hr]
        exact ⟨hm, hm2⟩

/-- `updateLocaleIdMappings` is idempotent over closed tables. -/
theorem locId_idem {T : Tables} (hT : CanonValuesFixed T)
    (hCR : ∀ p ∈ T.complexRegionMappings, RegionFixed T p.2.defaultRegion ∧
      ∀ rep ∈ p.2.nonDefault, RegionFixed T rep.region)
    (u : LocaleTag) :
    updateLocaleIdMappings T (updateLocaleIdMappings T u) =
      updateLocaleIdMappings T u := by
  have h1 := locId_lang_fixed hT u
  have h2 := locId_region_fixed hT hCR u
  show regionStep T (langStep T (updateLocaleIdMappings T u)) =
    updateLocaleIdMappings T u
  rw [langStep_id h1, regionStep_id h2]

/-- A failing exclusion guard determines every relevant field. -/
theorem guard_false_components {t : LocaleTag}
    (h : grandfatheredGuard t = false) :
    t.script = none ∧ t.region = none ∧ t.variants.length = 1 ∧
    t.extensions = [] ∧ t.privateuse = none := by
  have h' : ¬ grandfatheredGuard t = true := by simp [h]
  rw [grandfatheredGuard_iff] at h'
  exact not_not.mp h'

/-- `updateLocaleIdMappings` preserves a firing exclusion guard. -/
theorem locId_guard (T : Tables) (t : LocaleTag)
    (h : grandfatheredGuard t = true) :
    grandfatheredGuard (updateLocaleIdMappings T t) = true := by
  rw [grandfatheredGuard_iff] at h ⊢
  intro hc
  apply h
  obtain ⟨h1, h2, h3, h4, h5⟩ := hc
  refine ⟨?_, ?_, ?_, ?_, ?_⟩
  · by_cases hs : t.script.isSome
    · exfalso
      rw [updateLocaleIdMappings, regionStep_script,
        langStep_script_isSome T t hs] at h1
      rw [h1] at hs
      simp at hs
    · simpa [Option.not_isSome_iff_eq_none] using hs
  · by_cases hr : t.region.isSome
    · exfalso
      have hsome := regionStep_region_isSome T (langStep T t)
        (by rw [langStep_region_isSome T t hr]; exact hr)
      rw [updateLocaleIdMappings] at h2
      rw [h2] at hsome
      simp at hsome
    · simpa [Option.not_isSome_iff_eq_none] using hr
  · rw [updateLocaleIdMappings, regionStep_variants, langStep_variants] at h3
    exact h3
  · rw [updateLocaleIdMappings, regionStep_extensions, langStep_extensions] at h4
    exact h4
  · rw [updateLocaleIdMappings, regionStep_privateuse, langStep_privateuse] at h5
    exact h5

/-- A tag whose guard fires passes the grandfathered rewrite unchanged. -/
theorem grandf_id_guard {T : Tables} {t : LocaleTag}
    (h : grandfatheredGuard t = true) :
    updateGrandfatheredMappings T t = t := by
  rw [updateGrandfatheredMappings, if_pos h]

/-- A qualifying tag matching no entry passes the rewrite unchanged. -/
theorem grandf_id_nomatch {T : Tables} {t : LocaleTag}
    (hg : grandfatheredGuard t = false)
    (h : T.grandfathered.find? (gfMatch t) = none) :
    updateGrandfatheredMappings T t = t := by
  rw [updateGrandfatheredMappings, if_neg (by simp [hg]), h]

/-- Filling an absent field from an optional replacement is the replacement. -/
theorem if_isSome_self (o : Option String) :
    (if o.isSome then o else none) = o := by
  cases o <;> rfl

/-- The exclusion guard fails on a tag with all qualification components. -/
theorem guard_false_of_components {t : LocaleTag}
    (h1 : t.script = none) (h2 : t.region = none) (h3 : t.variants.length = 1)
    (h4 : t.extensions = []) (h5 : t.privateuse = none) :
    grandfatheredGuard t = false := by
  have hne : ¬ grandfatheredGuard t = true := by
    rw [grandfatheredGuard_iff]
    exact not_not_intro ⟨h1, h2, h3, h4, h5⟩
  cases hgb : grandfatheredGuard t
  · rfl
  · exact absurd hgb hne

/-- A table over which canonicalization is not idempotent: the language
mapping chain `aa -> bb -> cc` maps `aa` to the still-deprecated `bb`. -/
def Tchain : Tables := ⟨[("aa", "bb"), ("bb", "cc")], [], [], [], [], []⟩

/-- Counterexample to claim C6 as stated: over `Tchain`, canonicalizing the
tag `aa` once gives `bb` and twice gives `cc`. -/
theorem canonicalize_idempotent_cex :
    canonicalizeTag Tchain ⟨"aa", none, none, [], [], none⟩ =
      ⟨"bb", none, none, [], [], none⟩
    ∧ canonicalizeTag Tchain
        (canonicalizeTag Tchain ⟨"aa", none, none, [], [], none⟩) =
      ⟨"cc", none, none, [], [], none⟩
    ∧ (⟨"cc", none, none, [], [], none⟩ : LocaleTag) ≠
      ⟨"bb", none, none, [], [], none⟩ := by
  exact ⟨by decide, by decide, by decide⟩

/-- Claim C6, amended: full canonicalization (grandfathered rewrite followed
by the language/region mappings) is idempotent over closed tables
(`CanonClosed`): mapped values are themselves unmapped, no mapping produces a
grandfathered pattern language, and grandfathered replacements are canonical
and cannot re-qualify. -/
theorem canonicalize_idempotent (T : Tables) (hT : CanonClosed T)
    (t : LocaleTag) :
    canonicalizeTag T (canonicalizeTag T t) = canonicalizeTag T t := by
  obtain ⟨hCVF, hCR, hGS, hGC, hGF⟩ := hT
  have key : updateGrandfatheredMappings T (canonicalizeTag T t) =
      canonicalizeTag T t := by
    by_cases hg : grandfatheredGuard t = true
    · rw [canonicalizeTag, grandf_id_guard hg]
      exact grandf_id_guard (locId_guard T t hg)
    · have hgf : grandfatheredGuard t = false := by
        cases hgb : grandfatheredGuard t
        · rfl
        · exact absurd hgb hg
      obtain ⟨hscript, hregion, hvar, hext, hpu⟩ := guard_false_components hgf
      cases hfind : T.grandfathered.find? (gfMatch t) with
      | none =>
        rw [canonicalizeTag, grandf_id_nomatch hgf hfind]
        cases hm : lookup t.language T.languageMappings with
        | some l₂ =>
          have hls : langStep T t = { t with language := l₂ } := by
            simp [langStep, hm]
          have hrs : updateLocaleIdMappings T t = { t with language := l₂ } := by
            rw [updateLocaleIdMappings, hls]
            exact regionStep_id (regionFixedO_of_none hregion)
          rw [hrs]
          apply grandf_id_nomatch
          · exact guard_false_of_components hscript hregion hvar hext hpu
          · apply List.find?_eq_none.mpr
            intro g₂ hg₂
            have hne := hGS _ (lookup_mem hm) g₂ hg₂
            simp only [gfMatch, Bool.and_eq_true, decide_eq_true_eq]
            intro hcon
            exact hne hcon.1
        | none =>
          cases hm2 : lookup t.language T.complexLanguageMappings with
          | some m =>
            have hls : langStep T t =
                { t with language := m.language, script := m.script,
                         region := m.region } := by
              simp [langStep, hm, hm2, hscript, hregion]
            cases hmr : m.region with
            | some ρ =>
              have hrsome : (updateLocaleIdMappings T t).region.isSome := by
                rw [updateLocaleIdMappings, hls]
                apply regionStep_region_isSome
                show m.region.isSome
                rw [hmr]
                rfl
              apply grandf_id_guard
              rw [grandfatheredGuard_iff]
              intro hcon
              rw [hcon.2.1] at hrsome
              simp at hrsome
            | none =>
              have hrs : updateLocaleIdMappings T t =
                  { t with language := m.language, script := m.script,
                           region := m.region } := by
                rw [updateLocaleIdMappings, hls]
                exact regionStep_id (regionFixedO_of_none hmr)
              rw [hrs]
              cases hmsc : m.script with
              | some σ =>
                apply grandf_id_guard
                rw [grandfatheredGuard_iff]
                intro hcon
                simpa using hcon.1
              | none =>
                apply grandf_id_nomatch
                · exact guard_false_of_components rfl hmr hvar hext hpu
                · apply List.find?_eq_none.mpr
                  intro g₂ hg₂
                  have hne := hGC _ (lookup_mem hm2) g₂ hg₂
                  simp only [gfMatch, Bool.and_eq_true, decide_eq_true_eq]
                  intro hcon
                  exact hne hcon.1
          | none =>
            have hid : updateLocaleIdMappings T t = t := by
              rw [updateLocaleIdMappings, langStep_id ⟨hm, hm2⟩]
              exact regionStep_id (regionFixedO_of_none hregion)
            rw [hid]
            exact grandf_id_nomatch hgf hfind
      | some g =>
        have hmem := List.mem_of_find?_eq_some hfind
        obtain ⟨hglf, hgrf, hgnm⟩ := hGF g hmem
        have ht1 : updateGrandfatheredMappings T t = applyGrandfathered g t := by
          rw [updateGrandfatheredMappings, if_neg (by simp [hgf]), hfind]
        have ht2 : applyGrandfathered g t =
            ⟨g.language, g.script, g.region, g.variants, t.extensions,
             g.privateuse⟩ := by
          unfold applyGrandfathered
          rw [hscript, hregion, hpu, if_isSome_self, if_isSome_self,
            if_isSome_self]
        have hloc : updateLocaleIdMappings T (applyGrandfathered g t) =
            applyGrandfathered g t := by
          rw [updateLocaleIdMappings]
          rw [langStep_id (by rw [ht2]; exact hglf)]
          exact regionStep_id (by rw [ht2]; exact hgrf)
        rw [canonicalizeTag, ht1, hloc, ht2]
        rcases hgnm with hnm | hnm | hnm | hnm | hnm
        · apply grandf_id_guard
          rw [grandfatheredGuard_iff]
          intro hcon
          exact hnm hcon.1
        · apply grandf_id_guard
          rw [grandfatheredGuard_iff]
          intro hcon
          exact hnm hcon.2.1
        · apply grandf_id_guard
          rw [grandfatheredGuard_iff]
          intro hcon
          exact hnm hcon.2.2.1
        · apply grandf_id_guard
          rw [grandfatheredGuard_iff]
          intro hcon
          exact hnm hcon.2.2.2.2
        · by_cases hg2 : grandfatheredGuard
            ⟨g.language, g.script, g.region, g.variants, t.extensions,
             g.privateuse⟩ = true
          · exact grandf_id_guard hg2
          · have hg2f : grandfatheredGuard
                ⟨g.language, g.script, g.region, g.variants, t.extensions,
                 g.privateuse⟩ = false := by
              cases hgb : grandfatheredGuard
                ⟨g.language, g.script, g.region, g.variants, t.extensions,
                 g.privateuse⟩
              · rfl
              · exact absurd hgb hg2
            apply grandf_id_nomatch hg2f
            apply List.find?_eq_none.mpr
            intro g₂ hg₂
            have hne := hnm g₂ hg₂
            simp only [gfMatch, Bool.and_eq_true, decide_eq_true_eq]
            intro hcon
            exact hne hcon
  rw [canonicalizeTag, key]
  show updateLocaleIdMappings T
    (updateLocaleIdMappings T (updateGrandfatheredMappings T t)) =
    canonicalizeTag T t
  rw [locId_idem hCVF hCR]
  rfl

/-- A closed table exercising all mapping kinds: simple language `in -> id`,
complex language `sh -> sr-Latn`, simple region `BU -> MM`, complex region
`SU`, and the grandfathered `no-bok -> nb`. -/
def TcanonW : Tables :=
  ⟨[("in", "id")], [("sh", ⟨"sr", some "Latn", none⟩)], [("BU", "MM")],
   [("SU", ⟨"RU", [⟨"uz", none, "UZ"⟩]⟩)],
   [⟨"no", "bok", "nb", none, none, [], none⟩], []⟩

/-- Witness for the amended C6 at the closed table `TcanonW` and the tag
`sh-SU-fonipa` (complex language and complex region both fire). -/
theorem canonicalize_idempotent_witness :
    canonicalizeTag TcanonW
      (canonicalizeTag TcanonW ⟨"sh", none, some "SU", ["fonipa"], [], none⟩) =
      canonicalizeTag TcanonW ⟨"sh", none, some "SU", ["fonipa"], [], none⟩ :=
  canonicalize_idempotent TcanonW (by decide)
    ⟨"sh", none, some "SU", ["fonipa"], [], none⟩

/-! ## C10: the pre-lookup canonicalization inside `addLikelySubtags` -/

/-- A bare triple viewed as a full locale tag (no variants, extensions or
private-use). -/
def toLocaleTag (x : LTag) : LocaleTag :=
  ⟨x.language, x.script, x.region, [], [], none⟩

/-- The triple part of a full locale tag. -/
def toLTag (t : LocaleTag) : LTag :=
  ⟨t.language, t.script, t.region⟩

/-- Tables with a complex language mapping (`sh -> sr-Latn`) and a complex
region mapping (`SU`). -/
def Tsh : Tables :=
  ⟨[], [("sh", ⟨"sr", some "Latn", none⟩)], [],
   [("SU", ⟨"RU", [⟨"uz", none, "UZ"⟩]⟩)], [], []⟩

/-- Counterexample to claim C10 as stated: the likely-subtags `canonical`
does not apply complex region mappings (its assertion makes `ru-SU` fatal
instead of producing region `RU`), and the script is not always passed
through unchanged (the complex language mapping fills the absent script of
`sh`). -/
theorem maximize_precanonical_cex :
    canonical Tsh ⟨"ru", none, some "SU"⟩ = none
    ∧ addLikelySubtags Tsh ⟨"ru", none, some "SU"⟩ = none
    ∧ updateLocaleIdMappings Tsh (toLocaleTag ⟨"ru", none, some "SU"⟩) =
        ⟨"ru", none, some "RU", [], [], none⟩
    ∧ canonical Tsh ⟨"sh", none, none⟩ = some ⟨"sr", some "Latn", none⟩
    ∧ (some "Latn" : Option String) ≠ none := by
  exact ⟨by decide, by decide, by decide, by decide, by decide⟩

/-- The script produced by the language half of `canonical`: the input's own
script, or the complex mapping's script filling an absent one. -/
theorem canonicalLangStep_script (T : Tables) (x : LTag) :
    (canonicalLangStep T x).script = x.script ∨
    (x.script = none ∧ ∃ m, lookup x.language T.languageMappings = none ∧
      lookup x.language T.complexLanguageMappings = some m ∧
      (canonicalLangStep T x).script = m.script) := by
  unfold canonicalLangStep
  cases hm : lookup x.language T.languageMappings with
  | some l₂ => left; rfl
  | none =>
    cases hm2 : lookup x.language T.complexLanguageMappings with
    | some m =>
      cases hxs : x.script with
      | some σ => left; rfl
      | none => right; exact ⟨rfl, m, rfl, rfl, rfl⟩
    | none => left; rfl

/-- The language halves of `canonical` and of the generated canonicalizer
agree on bare triples. -/
theorem canonicalLangStep_correspond (T : Tables) (x : LTag) :
    canonicalLangStep T x = toLTag (langStep T (toLocaleTag x)) := by
  obtain ⟨xl, xs, xr⟩ := x
  unfold canonicalLangStep langStep toLocaleTag toLTag
  dsimp only
  cases hm : lookup xl T.languageMappings with
  | some l₂ => rfl
  | none =>
    cases hm2 : lookup xl T.complexLanguageMappings with
    | some m => cases xs <;> cases xr <;> rfl
    | none => rfl

/-- The region halves: `canonicalRegionStep` agrees with `regionStep`
whenever it succeeds, and fails exactly on a complex region mapping. -/
theorem canonicalRegionStep_correspond (T : Tables) (u : LocaleTag) :
    (canonicalRegionStep T (toLTag u) = none ∨
      canonicalRegionStep T (toLTag u) = some (toLTag (regionStep T u)))
    ∧ (canonicalRegionStep T (toLTag u) = none ↔
        ∃ ρ e, u.region = some ρ ∧ lookup ρ T.regionMappings = none ∧
          lookup ρ T.complexRegionMappings = some e)
    ∧ (∀ c, canonicalRegionStep T (toLTag u) = some c →
        c.script = u.script) := by
  cases hur : u.region with
  | none =>
    have h1 : canonicalRegionStep T (toLTag u) = some (toLTag u) := by
      simp [canonicalRegionStep, toLTag, hur]
    have h2 : regionStep T u = u := by
      simp [regionStep, hur]
    rw [h1, h2]
    refine ⟨Or.inr rfl, by simp [hur], ?_⟩
    intro c hc
    obtain rfl := Option.some.inj hc
    rfl
  | some ρ =>
    cases hm : lookup ρ T.regionMappings with
    | some ρ₂ =>
      have h1 : canonicalRegionStep T (toLTag u) =
          some ⟨u.language, u.script, some ρ₂⟩ := by
        simp [canonicalRegionStep, toLTag, hur, hm]
      have h2 : regionStep T u = { u with region := some ρ₂ } := by
        simp [regionStep, hur, hm]
      rw [h1, h2]
      refine ⟨Or.inr rfl, by simp [hur, hm], ?_⟩
      intro c hc
      obtain rfl := Option.some.inj hc
      rfl
    | none =>
      cases hm2 : lookup ρ T.complexRegionMappings with
      | some e =>
        have h1 : canonicalRegionStep T (toLTag u) = none := by
          simp [canonicalRegionStep, toLTag, hur, hm, hm2]
        rw [h1]
        refine ⟨Or.inl rfl, ?_, ?_⟩
        · constructor
          · intro _
            exact ⟨ρ, e, rfl, hm, hm2⟩
          · intro _
            rfl
        · intro c hc
          cases hc
      | none =>
        have h1 : canonicalRegionStep T (toLTag u) = some (toLTag u) := by
          simp [canonicalRegionStep, toLTag, hur, hm, hm2]
        have h2 : regionStep T u = u := by
          simp [regionStep, hur, hm, hm2]
        rw [h1, h2]
        refine ⟨Or.inr rfl, by simp [hur, hm, hm2], ?_⟩
        intro c hc
        obtain rfl := Option.some.inj hc
        rfl

/-- Claim C10, amended: before the table lookup, `addLikelySubtags`
canonicalizes its input with the simple-language, complex-language and
simple-region mappings exactly as the TagCanonicalizer
(`updateLocaleIdMappings`) does, agreeing with it whenever it succeeds; but a
region carrying a complex region mapping is a fatal assertion instead of
being mapped, and the script is passed through unchanged except when a
complex language mapping fills an absent script. -/
theorem maximize_precanonical (T : Tables) (x : LTag) :
    (canonical T x = none ∨
      canonical T x = some (toLTag (updateLocaleIdMappings T (toLocaleTag x))))
    ∧ (canonical T x = none ↔
        ∃ ρ e, (canonicalLangStep T x).region = some ρ ∧
          lookup ρ T.regionMappings = none ∧
          lookup ρ T.complexRegionMappings = some e)
    ∧ (∀ c, canonical T x = some c →
        c.script = x.script ∨
        (x.script = none ∧ ∃ m, lookup x.language T.languageMappings = none ∧
          lookup x.language T.complexLanguageMappings = some m ∧
          c.script = m.script)) := by
  have hL := canonicalLangStep_correspond T x
  have hreg := canonicalRegionStep_correspond T (langStep T (toLocaleTag x))
  have hcan : canonical T x =
      canonicalRegionStep T (toLTag (langStep T (toLocaleTag x))) := by
    rw [canonical, hL]
  refine ⟨?_, ?_, ?_⟩
  · rw [hcan, updateLocaleIdMappings]
    exact hreg.1
  · rw [hcan, hL]
    exact hreg.2.1
  · intro c hc
    rw [hcan] at hc
    have hscr := hreg.2.2 c hc
    have hu : (langStep T (toLocaleTag x)).script =
        (canonicalLangStep T x).script := by rw [hL]; rfl
    rw [hu] at hscr
    rcases canonicalLangStep_script T x with h | ⟨h1, m, h2, h3, h4⟩
    · exact Or.inl (hscr.trans h)
    · exact Or.inr ⟨h1, m, h2, h3, hscr.trans h4⟩

/-- Witness for the amended C10's conditional part: for `sh` (complex
language mapping), the canonicalized script is the mapping's filled-in
script. -/
theorem maximize_precanonical_witness :
    (⟨"sr", some "Latn", none⟩ : LTag).script =
      (⟨"sh", none, none⟩ : LTag).script ∨
    ((⟨"sh", none, none⟩ : LTag).script = none ∧
      ∃ m, lookup (⟨"sh", none, none⟩ : LTag).language
            Tsh.languageMappings = none ∧
        lookup (⟨"sh", none, none⟩ : LTag).language
          Tsh.complexLanguageMappings = some m ∧
        (⟨"sr", some "Latn", none⟩ : LTag).script = m.script) :=
  (maximize_precanonical Tsh ⟨"sh", none, none⟩).2.2
    ⟨"sr", some "Latn", none⟩ (by decide)
